import Mathlib

/-!
Shallow embedding of `src/main.rs` of the `ls-preview` program.

Conventions used throughout:
* Entry names are Lean `String`s, compared by codepoint-lexicographic order
  (`lexLe` below).  Rust compares `OsString`s byte-wise; on valid UTF-8 data
  byte-wise order and codepoint order coincide.
* Machine integers (`u16`, `usize`) are modelled as `Nat`.  The `u16`
  arithmetic of the layout computation can overflow or underflow (a panic in
  a debug build, a wrap followed by a division by zero in a release build);
  those situations are modelled as `none` ("undefined").  Inside the loop
  that prints entries the Rust source casts the running index `i` to `u16`
  before computing `(i as u16 + 1) % num_columns`; that cast is kept
  explicitly as `% 65536`.
* External effects are oracles: the per-step elapsed wall-clock times of the
  scanner are a function `times : Nat → Nat` (nanoseconds), the display
  width measurement `console::measure_text_width` is a function
  `widthOf : String → Nat`, and the terminal width query is an
  `Option Nat` argument.
* Terminal output is modelled as a list of print events (`Item`): a styled
  entry name with its type indicator, a run of padding spaces, the literal
  `....` truncation marker, and a line break.
-/

namespace LsPreview

/-- File types distinguished by the program (the closed set of variants the
classifier inspects, matching `std::fs::FileType` queries in order). -/
inductive FileType where
  | directory
  | symlink
  | socket
  | fifo
  | blockDevice
  | charDevice
  | regularFile
  | other
deriving DecidableEq, Repr

/-- Mirrors Rust `FileType::is_dir`. -/
def FileType.is_dir (t : FileType) : Bool := t = FileType.directory

/-- A directory entry as collected by the scanner: `(OsString, FileType)`. -/
structure RawEntry where
  name : String
  ftype : FileType
deriving DecidableEq, Repr

/-- An entry handed to the layout engine:
`(&OsString, &FileType, u16 /- display width -/)`. -/
structure LEntry where
  name : String
  ftype : FileType
  width : Nat
deriving DecidableEq, Repr

/-- Codepoint-lexicographic `≤` on character lists; on UTF-8 strings this is
exactly the byte-wise `Ord` that Rust uses for `OsString`. -/
def lexLe : List Char → List Char → Bool
  | [], _ => true
  | _ :: _, [] => false
  | a :: as, b :: bs =>
    if a.toNat < b.toNat then true
    else if b.toNat < a.toNat then false
    else lexLe as bs

/-- Codepoint-lexicographic strict `<` on character lists. -/
def lexLt : List Char → List Char → Bool
  | [], [] => false
  | [], _ :: _ => true
  | _ :: _, [] => false
  | a :: as, b :: bs =>
    if a.toNat < b.toNat then true
    else if b.toNat < a.toNat then false
    else lexLt as bs

/-- Name comparison used by `entries.sort_by(|a, b| a.0.cmp(&b.0))`. -/
def nameLe (a b : String) : Bool := lexLe a.data b.data

/-- Mirrors `name.to_string_lossy().starts_with(".")`. -/
def hiddenName (s : String) : Bool :=
  match s.data with
  | [] => false
  | c :: _ => c = '.'

/-- Abstract terminal colors used by the classifier. -/
inductive TermColor where
  | blue
  | magenta
  | yellow
  | cyan
deriving DecidableEq, Repr

/-- An abstract `console::Style`: foreground, boldness, background. -/
structure Style where
  fg : Option TermColor
  bold : Bool
  bg : Option TermColor
deriving DecidableEq, Repr

/-- Mirrors `get_color_and_indicator`; the Rust `&'static str` indicator is a
single character or empty, modelled as `Option Char`. -/
def get_color_and_indicator : FileType → Style × Option Char
  | .directory => (⟨some .blue, true, none⟩, some '/')
  | .symlink => (⟨some .magenta, false, none⟩, some '@')
  | .socket => (⟨some .magenta, false, none⟩, some '=')
  | .fifo => (⟨some .yellow, false, none⟩, some '|')
  | .blockDevice => (⟨some .blue, false, some .cyan⟩, none)
  | .charDevice => (⟨some .blue, false, some .yellow⟩, none)
  | .regularFile => (⟨none, false, none⟩, none)
  | .other => (⟨none, false, none⟩, none)

/-- One print event of the program's standard-output stream. -/
inductive Item where
  | entryI : String → Option Char → Item
  | padI : Nat → Item
  | dotsI : Item
  | nlI : Item
deriving DecidableEq, Repr

/-- The 10 ms time budget of the scanner, in nanoseconds. -/
def TIME_LIMIT_NS : Nat := 10000000

/-- `entries.sort_by(|a, b| a.0.cmp(&b.0))`: a stable sort by name.  Rust's
stable `sort_by` is modelled by insertion sort (also stable, and it computes
the same list as any stable sort under the same total preorder). -/
def sortByName (l : List LEntry) : List LEntry :=
  List.insertionSort (fun a b => nameLe a.name b.name = true) l

/-- Mirrors `entries.iter().map(|(_, _, width)| *width).max()` (the `unwrap`
of the Rust source is the `Option`). -/
def maxWidth? : List LEntry → Option Nat
  | [] => none
  | e :: rest => some ((maxWidth? rest).elim e.width (fun m => max e.width m))

/-- Lines 113–119 of `main.rs`: round the maximal name width up to the next
multiple of 8 and derive the column count.  The subtraction `max_width - 1`
underflows `u16` when `max_width = 0` and the product overflows `u16` when
`max_width ≥ 65529` (and then the division `w / column_width` divides by
zero); both are modelled as `none`. -/
def layoutNums (maxWidth : Nat) (terminalWidth : Option Nat) : Option (Nat × Nat) :=
  if maxWidth = 0 then none
  else if 65535 < ((maxWidth - 1) / 8 + 1) * 8 then none
  else
    some (((maxWidth - 1) / 8 + 1) * 8,
      max 1 ((terminalWidth.map (fun w => w / (((maxWidth - 1) / 8 + 1) * 8))).getD 0))

/-- Lines 139–159 of `main.rs`: the printing loop, at running index `i`,
over the remaining entries; `total` is `entries.len()` of the whole list.
The `next_row_index` of the source, `(i as u16 + 1) % num_columns`, is
written out as `((i % 65536 + 1) % 65536) % numColumns` at each use. -/
def emitFrom (numColumns maxLines columnWidth total : Nat) : Nat → List LEntry → List Item
  | _, [] => []
  | i, e :: rest =>
    if i = maxLines * numColumns - 1 then [Item.dotsI, Item.nlI]
    else
      Item.entryI e.name (get_color_and_indicator e.ftype).2 ::
        ((if ((i % 65536 + 1) % 65536) % numColumns ≠ 0 then
            [Item.padI (columnWidth - e.width)]
          else []) ++
          ((if ((i % 65536 + 1) % 65536) % numColumns = 0 ∨ i = total - 1 then [Item.nlI]
            else []) ++
            emitFrom numColumns maxLines columnWidth total (i + 1) rest))

/-- The printing loop started at index 0 on the full (already sorted) list. -/
def emit (entries : List LEntry) (numColumns maxLines columnWidth : Nat) : List Item :=
  emitFrom numColumns maxLines columnWidth entries.length 0 entries

/-- `print_entries_in_columns` specialised to `consider_dirs_only = false`:
compute the layout numbers, sort, print.  `none` models a panic. -/
def printNoNarrow (entries : List LEntry) (terminalWidth : Option Nat)
    (maxLines : Nat) : Option (List Item) :=
  match maxWidth? entries with
  | none => none
  | some mW =>
    match layoutNums mW terminalWidth with
    | none => none
    | some (cw, nc) => some (emit (sortByName entries) nc maxLines cw)

/-- Lines 107–161 of `main.rs`.  With `consider_dirs_only = true` the engine
first checks whether the entries exceed the grid capacity and, when they do
and a directory is present, recurses on the directories alone with the flag
cleared; otherwise it sorts and prints with the numbers just computed. -/
def print_entries_in_columns (entries : List LEntry) (terminalWidth : Option Nat)
    (maxLines : Nat) (considerDirsOnly : Bool) : Option (List Item) :=
  if considerDirsOnly then
    match maxWidth? entries with
    | none => none
    | some mW =>
      match layoutNums mW terminalWidth with
      | none => none
      | some (cw, nc) =>
        if nc * maxLines < entries.length ∧ entries.any (fun e => e.ftype.is_dir) then
          printNoNarrow (entries.filter (fun e => e.ftype.is_dir)) terminalWidth maxLines
        else some (emit (sortByName entries) nc maxLines cw)
  else printNoNarrow entries terminalWidth maxLines

/-- Result of the scanning loop of `main` (lines 43–74). -/
structure ScanOutcome where
  entries : List RawEntry
  numDirs : Nat
  tooManyDirs : Bool
  ranOutOfTimeListing : Bool
deriving DecidableEq, Repr

/-- Lines 51–74 of `main.rs`: the enumeration loop.  `times j` is the
elapsed wall-clock time (ns) measured for the `j`-th processed non-hidden
entry; hidden entries are skipped before any time is read (`continue`). -/
def scanLoop (maxItems : Nat) (times : Nat → Nat) :
    List RawEntry → Nat → Nat → ScanOutcome
  | [], _, numDirs => ⟨[], numDirs, false, false⟩
  | e :: rest, i, numDirs =>
    if hiddenName e.name then scanLoop maxItems times rest i numDirs
    else
      let numDirs' := if e.ftype.is_dir then numDirs + 1 else numDirs
      if maxItems ≤ numDirs' then ⟨[e], numDirs', true, false⟩
      else if TIME_LIMIT_NS < times i then ⟨[e], numDirs', false, true⟩
      else
        let out := scanLoop maxItems times rest (i + 1) numDirs'
        ⟨e :: out.entries, out.numDirs, out.tooManyDirs, out.ranOutOfTimeListing⟩

/-- The whole bounded scan of a directory listing (enumeration order). -/
def scan (maxItems : Nat) (times : Nat → Nat) (listing : List RawEntry) : ScanOutcome :=
  scanLoop maxItems times listing 0 0

/-- Lines 36–39: `terminal_width.map(|w| (w / MIN_TAB_WIDTH) as usize).unwrap_or(0).max(1)`. -/
def maxColumnsOf (terminalWidth : Option Nat) : Nat :=
  max ((terminalWidth.map (fun w => w / 8)).getD 0) 1

/-- Line 76: `ran_out_of_time_listing || too_many_dirs || entries.len() > max_items`. -/
def mustShowDirsOnly (out : ScanOutcome) (maxItems : Nat) : Bool :=
  out.ranOutOfTimeListing || out.tooManyDirs || decide (maxItems < out.entries.length)

/-- Lines 79–96: keep only directories when forced, otherwise keep all. -/
def keptEntries (out : ScanOutcome) (maxItems : Nat) : List RawEntry :=
  if mustShowDirsOnly out maxItems then out.entries.filter (fun e => e.ftype.is_dir)
  else out.entries

/-- Observable outcome of a whole program run (given a successfully opened
directory): the `max_lines` validation failure (message on stderr, exit
code 1), a normal run with its printed output (exit code 0), or a modelled
arithmetic panic. -/
inductive RunResult where
  | usageError
  | ok : List Item → RunResult
  | undef
deriving DecidableEq, Repr

/-- Lines 79–96: measuring display widths while collecting the candidate
set; `as u16` is the `% 65536`. -/
def toLayoutEntries (widthOf : String → Nat) (l : List RawEntry) : List LEntry :=
  l.map (fun e => LEntry.mk e.name e.ftype (widthOf e.name % 65536))

/-- The candidate set handed to the layout engine by `main`. -/
def candidateEntries (widthOf : String → Nat) (terminalWidth : Option Nat)
    (maxLines : Nat) (listing : List RawEntry) (times : Nat → Nat) : List LEntry :=
  toLayoutEntries widthOf
    (keptEntries (scan (maxColumnsOf terminalWidth * maxLines) times listing)
      (maxColumnsOf terminalWidth * maxLines))

/-- The orchestration in `main` (lines 25–105): validate `max_lines`,
derive the scan capacity, scan, decide directories-only, measure widths,
short-circuit on an empty candidate set, and lay out.  IO failures of
`read_dir`/`file_type` abort the whole run in the source and are outside
this model (the listing oracle is the successfully read directory). -/
def run (maxLines : Nat) (terminalWidth : Option Nat) (widthOf : String → Nat)
    (listing : List RawEntry) (times : Nat → Nat) : RunResult :=
  if maxLines = 0 then RunResult.usageError
  else if (candidateEntries widthOf terminalWidth maxLines listing times).isEmpty then
    RunResult.ok []
  else
    match print_entries_in_columns (candidateEntries widthOf terminalWidth maxLines listing times)
        terminalWidth maxLines
        (!mustShowDirsOnly (scan (maxColumnsOf terminalWidth * maxLines) times listing)
          (maxColumnsOf terminalWidth * maxLines)) with
    | none => RunResult.undef
    | some items => RunResult.ok items

/-- Names of the entries printed, in output order. -/
def outputNames (items : List Item) : List String :=
  items.filterMap (fun it =>
    match it with
    | Item.entryI n _ => some n
    | _ => none)

/-- Number of directory-type entries in a list. -/
def dirCount (l : List RawEntry) : Nat :=
  (l.filter (fun e => e.ftype.is_dir)).length

/-- The non-hidden part of a directory listing, in enumeration order. -/
def visible (listing : List RawEntry) : List RawEntry :=
  listing.filter (fun e => !hiddenName e.name)

/-! ### Basic facts about the name order -/

theorem lexLe_refl (a : List Char) : lexLe a a = true := by
  induction a with
  | nil => rfl
  | cons x xs ih => simp [lexLe, ih]

theorem lexLe_trans (a b c : List Char) (h1 : lexLe a b = true) (h2 : lexLe b c = true) :
    lexLe a c = true := by
  induction a generalizing b c with
  | nil => simp [lexLe]
  | cons x xs ih =>
    cases b with
    | nil => simp [lexLe] at h1
    | cons y ys =>
      cases c with
      | nil => simp [lexLe] at h2
      | cons z zs =>
        simp only [lexLe] at h1 h2 ⊢
        split_ifs at h1 h2 ⊢ <;> first | rfl | omega | exact ih ys zs h1 h2

theorem lexLe_total (a b : List Char) : (lexLe a b || lexLe b a) = true := by
  induction a generalizing b with
  | nil => simp [lexLe]
  | cons x xs ih =>
    cases b with
    | nil => simp [lexLe]
    | cons y ys =>
      simp only [lexLe]
      split_ifs <;> first | rfl | exact ih ys

theorem lexLt_of_lexLe_of_ne (a b : List Char) (h1 : lexLe a b = true) (h2 : a ≠ b) :
    lexLt a b = true := by
  induction a generalizing b with
  | nil =>
    cases b with
    | nil => simp at h2
    | cons y ys => rfl
  | cons x xs ih =>
    cases b with
    | nil => simp [lexLe] at h1
    | cons y ys =>
      simp only [lexLe] at h1
      simp only [lexLt]
      split_ifs at h1 ⊢ with hxy hyx
      · rfl
      · have hx : x = y := Char.ext (UInt32.ext (show x.toNat = y.toNat by omega))
        subst hx
        exact ih ys h1 (by simpa using h2)

/-! ### The sort used by the layout engine -/

theorem sortByName_perm (l : List LEntry) : (sortByName l).Perm l :=
  List.perm_insertionSort _ l

theorem sortByName_sorted (l : List LEntry) :
    List.Pairwise (fun a b => nameLe a.name b.name = true) (sortByName l) := by
  haveI : IsTotal LEntry (fun a b => nameLe a.name b.name = true) :=
    ⟨fun a b => by
      have h := lexLe_total a.name.data b.name.data
      rcases Bool.or_eq_true_iff.mp h with h' | h'
      · exact Or.inl h'
      · exact Or.inr h'⟩
  haveI : IsTrans LEntry (fun a b => nameLe a.name b.name = true) :=
    ⟨fun a b c h1 h2 => lexLe_trans _ _ _ h1 h2⟩
  exact List.sorted_insertionSort _ l

/-! ### Facts about `maxWidth?` -/

theorem maxWidth?_eq_none_iff (l : List LEntry) : maxWidth? l = none ↔ l = [] := by
  cases l <;> simp [maxWidth?]

theorem width_le_of_maxWidth? {l : List LEntry} {m : Nat} (h : maxWidth? l = some m) :
    ∀ e ∈ l, e.width ≤ m := by
  induction l generalizing m with
  | nil => simp [maxWidth?] at h
  | cons x xs ih =>
    simp only [maxWidth?, Option.some.injEq] at h
    cases hxs : maxWidth? xs with
    | none =>
      have hnil : xs = [] := (maxWidth?_eq_none_iff xs).mp hxs
      subst hnil
      simp only [hxs, Option.elim] at h
      simp [← h]
    | some mx =>
      rw [hxs] at h
      simp only [Option.elim] at h
      intro e he
      rcases List.mem_cons.mp he with he | he
      · subst he; omega
      · have := ih hxs e he; omega

theorem maxWidth?_mem {l : List LEntry} {m : Nat} (h : maxWidth? l = some m) :
    ∃ e ∈ l, e.width = m := by
  induction l generalizing m with
  | nil => simp [maxWidth?] at h
  | cons x xs ih =>
    simp only [maxWidth?, Option.some.injEq] at h
    cases hxs : maxWidth? xs with
    | none =>
      rw [hxs] at h
      simp only [Option.elim] at h
      exact ⟨x, List.mem_cons_self _ _, h⟩
    | some mx =>
      rw [hxs] at h
      simp only [Option.elim] at h
      rcases Nat.le_total x.width mx with hle | hle
      · rcases ih hxs with ⟨e, he, hw⟩
        exact ⟨e, List.mem_cons_of_mem _ he, by omega⟩
      · exact ⟨x, List.mem_cons_self _ _, by omega⟩

/-! ### Facts about `layoutNums` -/

theorem layoutNums_some_elim {mW : Nat} {tw : Option Nat} {cw nc : Nat}
    (h : layoutNums mW tw = some (cw, nc)) :
    1 ≤ mW ∧ cw = ((mW - 1) / 8 + 1) * 8 ∧ cw ≤ 65535
      ∧ nc = max 1 ((tw.map (fun w => w / cw)).getD 0) := by
  unfold layoutNums at h
  split at h
  · exact absurd h (by simp)
  · rename_i hm
    split at h
    · exact absurd h (by simp)
    · rename_i hcw
      simp only [Option.some.injEq, Prod.mk.injEq] at h
      refine ⟨by omega, h.1.symm, by omega, ?_⟩
      rw [← h.1, ← h.2]

theorem layoutNums_defined (mW : Nat) (tw : Option Nat) (h1 : 1 ≤ mW) (h2 : mW ≤ 65528) :
    layoutNums mW tw =
      some (((mW - 1) / 8 + 1) * 8,
        max 1 ((tw.map (fun w => w / (((mW - 1) / 8 + 1) * 8))).getD 0)) := by
  unfold layoutNums
  rw [if_neg (by omega), if_neg (by omega)]

/-- C5: in every layout pass that computes its numbers, `columnWidth` is the
maximum display width of the candidate names rounded up to the next multiple
of 8 — `ceil(maxNameWidth / 8) * 8` — and a positive multiple of 8. -/
theorem claim_C5 (entries : List LEntry) (tw : Option Nat) (mW cw nc : Nat)
    (hmw : maxWidth? entries = some mW) (hl : layoutNums mW tw = some (cw, nc)) :
    cw = (mW + 7) / 8 * 8 ∧ 8 ∣ cw ∧ 0 < cw
      ∧ (∀ e ∈ entries, e.width ≤ mW) ∧ (∃ e ∈ entries, e.width = mW) := by
  obtain ⟨h1, hcw, hle, _⟩ := layoutNums_some_elim hl
  exact ⟨by omega, ⟨(mW - 1) / 8 + 1, by omega⟩, by omega,
    width_le_of_maxWidth? hmw, maxWidth?_mem hmw⟩

/-- Witness for C5 at a singleton candidate set of display width 3. -/
theorem claim_C5_witness :
    (8 : Nat) = (3 + 7) / 8 * 8 ∧ (8 : Nat) ∣ 8 ∧ (0 : Nat) < 8
      ∧ (∀ e ∈ [LEntry.mk "a" FileType.regularFile 3], e.width ≤ 3)
      ∧ (∃ e ∈ [LEntry.mk "a" FileType.regularFile 3], e.width = 3) :=
  claim_C5 [LEntry.mk "a" FileType.regularFile 3] (some 80) 3 8 10 rfl rfl

/-- C6: in every layout pass that computes its numbers, `columnCount ≥ 1`;
with a known terminal width it is the largest integer with
`columnCount * columnWidth ≤ terminalWidth`, floored to 1 when that integer
would be 0; with an unknown terminal width it is 1. -/
theorem claim_C6 (mW : Nat) (tw : Option Nat) (cw nc : Nat)
    (hl : layoutNums mW tw = some (cw, nc)) :
    1 ≤ nc ∧ (tw = none → nc = 1)
      ∧ ∀ w, tw = some w →
          (cw ≤ w → nc * cw ≤ w ∧ w < (nc + 1) * cw) ∧ (w < cw → nc = 1) := by
  obtain ⟨h1, hcw, hle, hnc⟩ := layoutNums_some_elim hl
  have hcw0 : 0 < cw := by omega
  refine ⟨hnc ▸ le_max_left 1 _, fun h => by subst h; simpa using hnc, ?_⟩
  intro w hw
  subst hw
  simp only [Option.map] at hnc
  simp only [Option.getD] at hnc
  constructor
  · intro hcww
    have hq : 1 ≤ w / cw := (Nat.one_le_div_iff hcw0).mpr hcww
    have hqnc : nc = w / cw := by rw [hnc]; exact max_eq_right hq
    refine ⟨hqnc ▸ Nat.div_mul_le_self w cw, ?_⟩
    have hdm := Nat.div_add_mod w cw
    have hr : w % cw < cw := Nat.mod_lt w hcw0
    have hlt : cw * (w / cw) + w % cw < cw * (w / cw) + cw := Nat.add_lt_add_left hr _
    rw [hdm] at hlt
    have heq : (nc + 1) * cw = cw * (w / cw) + cw := by rw [hqnc]; ring
    rw [heq]
    exact hlt
  · intro hwc
    rw [hnc, Nat.div_eq_of_lt hwc]
    simp

/-- Witness for C6 with maximal name width 3 and terminal width 80. -/
theorem claim_C6_witness :
    1 ≤ 10 ∧ ((some 80 : Option Nat) = none → 10 = 1)
      ∧ ∀ w, (some 80 : Option Nat) = some w →
          (8 ≤ w → 10 * 8 ≤ w ∧ w < (10 + 1) * 8) ∧ (w < 8 → 10 = 1) :=
  claim_C6 3 (some 80) 8 10 rfl

/-- C9: the program exits with the usage error exactly when `max_lines = 0`,
and that decision is taken before the directory listing is consulted (the
result at `max_lines = 0` is the same for every listing and timing). -/
theorem claim_C9 (ml : Nat) (tw : Option Nat) (wf : String → Nat)
    (listing listing2 : List RawEntry) (times times2 : Nat → Nat) :
    (run ml tw wf listing times = RunResult.usageError ↔ ml = 0)
      ∧ run 0 tw wf listing2 times2 = RunResult.usageError := by
  refine ⟨⟨fun h => ?_, fun h => by simp [run, h]⟩, by simp [run]⟩
  by_contra hml
  unfold run at h
  rw [if_neg hml] at h
  split at h
  · exact absurd h (by simp)
  · split at h <;> simp_all

/-- C10 (amended): the layout arithmetic is total — the `max_width - 1`
rounding does not underflow, the division by `column_width` is never by
zero, and every padding subtraction `column_width - width` is in range —
provided some candidate name has display width ≥ 1 AND the maximal width is
at most 65528 (so that the rounded column width fits in `u16`); a zero
maximal width makes the computation undefined whenever the terminal width
is known. -/
theorem claim_C10_amended (entries : List LEntry) (tw : Option Nat) (mW : Nat)
    (hmw : maxWidth? entries = some mW) (h1 : 1 ≤ mW) (h2 : mW ≤ 65528) :
    (∃ cw nc, layoutNums mW tw = some (cw, nc)
        ∧ 0 < cw ∧ 1 ≤ nc ∧ ∀ e ∈ entries, e.width ≤ cw)
      ∧ ∀ w, layoutNums 0 (some w) = none := by
  refine ⟨⟨((mW - 1) / 8 + 1) * 8, _, layoutNums_defined mW tw h1 h2, by omega,
    le_max_left 1 _, ?_⟩, fun w => by simp [layoutNums]⟩
  intro e he
  have := width_le_of_maxWidth? hmw e he
  omega

/-- Witness for the amended C10 at a singleton candidate set of width 1. -/
theorem claim_C10_witness :
    (∃ cw nc, layoutNums 1 (some 80) = some (cw, nc)
        ∧ 0 < cw ∧ 1 ≤ nc ∧ ∀ e ∈ [LEntry.mk "a" FileType.regularFile 1], e.width ≤ cw)
      ∧ ∀ w, layoutNums 0 (some w) = none :=
  claim_C10_amended [LEntry.mk "a" FileType.regularFile 1] (some 80) 1 rfl
    (by omega) (by omega)

/-- C10 fails as stated: a `u16` display width of 65535 (so ≥ 1) makes the
column-width rounding overflow `u16` and the subsequent division divide by
zero; the arithmetic is not total under the positive-width precondition
alone. -/
theorem claim_C10_counterexample :
    (∃ e ∈ [LEntry.mk "x" FileType.regularFile 65535], 1 ≤ e.width)
      ∧ maxWidth? [LEntry.mk "x" FileType.regularFile 65535] = some 65535
      ∧ layoutNums 65535 (some 80) = none := by
  refine ⟨⟨LEntry.mk "x" FileType.regularFile 65535, by simp, by norm_num⟩, rfl, by decide⟩

/-! ### Facts about the printing loop -/

theorem outputNames_append (a b : List Item) :
    outputNames (a ++ b) = outputNames a ++ outputNames b :=
  List.filterMap_append a b _

theorem outputNames_nil : outputNames [] = [] := rfl

theorem outputNames_cons_entryI (n : String) (ind : Option Char) (l : List Item) :
    outputNames (Item.entryI n ind :: l) = n :: outputNames l := rfl

theorem outputNames_cons_padI (n : Nat) (l : List Item) :
    outputNames (Item.padI n :: l) = outputNames l := rfl

theorem outputNames_cons_dotsI (l : List Item) :
    outputNames (Item.dotsI :: l) = outputNames l := rfl

theorem outputNames_cons_nlI (l : List Item) :
    outputNames (Item.nlI :: l) = outputNames l := rfl

theorem emitFrom_ne_nil (nc ml cw total i : Nat) (e : LEntry) (l : List LEntry) :
    emitFrom nc ml cw total i (e :: l) ≠ [] := by
  unfold emitFrom
  split <;> simp

/-- The names printed by the loop are always an in-order prefix of the names
of the list being printed. -/
theorem emitFrom_names_prefix (nc ml cw total : Nat) (l : List LEntry) :
    ∀ i : Nat, ∃ k, outputNames (emitFrom nc ml cw total i l) = (l.map LEntry.name).take k := by
  induction l with
  | nil => exact fun i => ⟨0, rfl⟩
  | cons e rest ih =>
    intro i
    by_cases hi : i = ml * nc - 1
    · exact ⟨0, by simp [emitFrom, hi, outputNames]⟩
    · obtain ⟨k, hk⟩ := ih (i + 1)
      refine ⟨k + 1, ?_⟩
      simp only [emitFrom, if_neg hi, List.map_cons, List.take_succ_cons]
      split_ifs <;>
        simp [outputNames_append, outputNames_cons_entryI, outputNames_cons_padI,
          outputNames_cons_nlI, outputNames_nil, hk]

/-- As long as the running index stays below the truncation index, the loop
prints every entry and never the `....` marker. -/
theorem emitFrom_no_trunc (nc ml cw total : Nat) (l : List LEntry) :
    ∀ i : Nat, i + l.length ≤ ml * nc - 1 →
      Item.dotsI ∉ emitFrom nc ml cw total i l
        ∧ outputNames (emitFrom nc ml cw total i l) = l.map LEntry.name := by
  induction l with
  | nil => intro i _; exact ⟨by simp [emitFrom], rfl⟩
  | cons e rest ih =>
    intro i hle
    have hlen : i + (rest.length + 1) ≤ ml * nc - 1 := by simpa using hle
    have hi : i ≠ ml * nc - 1 := by omega
    obtain ⟨hmem, hnames⟩ := ih (i + 1) (by omega)
    constructor
    · simp only [emitFrom, if_neg hi]
      split_ifs <;> simp_all
    · simp only [emitFrom, if_neg hi, List.map_cons]
      split_ifs <;>
        simp [outputNames_append, outputNames_cons_entryI, outputNames_cons_padI,
          outputNames_cons_nlI, outputNames_nil, hnames]

/-- When the truncation index falls inside the list, the loop prints the
entries strictly before that index and then the marker and a line break. -/
theorem emitFrom_truncates (nc ml cw total : Nat) (l : List LEntry) :
    ∀ i : Nat, i ≤ ml * nc - 1 → ml * nc - 1 < i + l.length →
      emitFrom nc ml cw total i l
        = emitFrom nc ml cw total i (l.take (ml * nc - 1 - i)) ++ [Item.dotsI, Item.nlI] := by
  induction l with
  | nil => intro i h1 h2; simp at h2; omega
  | cons e rest ih =>
    intro i h1 h2
    by_cases hi : i = ml * nc - 1
    · simp [emitFrom, hi, Nat.sub_self]
    · have hstep : ml * nc - 1 - i = (ml * nc - 1 - (i + 1)) + 1 := by omega
      rw [hstep]
      simp only [List.take_succ_cons, emitFrom, if_neg hi]
      rw [ih (i + 1) (by omega) (by simp at h2 ⊢; omega)]
      simp [List.append_assoc]

theorem emitFrom_cons (nc ml cw total i : Nat) (e : LEntry) (rest : List LEntry) :
    emitFrom nc ml cw total i (e :: rest)
      = if i = ml * nc - 1 then [Item.dotsI, Item.nlI]
        else Item.entryI e.name (get_color_and_indicator e.ftype).2 ::
          ((if ((i % 65536 + 1) % 65536) % nc ≠ 0 then [Item.padI (cw - e.width)] else []) ++
            ((if ((i % 65536 + 1) % 65536) % nc = 0 ∨ i = total - 1 then [Item.nlI] else []) ++
              emitFrom nc ml cw total (i + 1) rest)) := rfl

theorem getLast?_cons_of_ne_nil {α : Type} (a : α) {l : List α} (h : l ≠ []) :
    (a :: l).getLast? = l.getLast? := by
  rw [show (a :: l) = [a] ++ l from rfl]
  exact List.getLast?_append_of_ne_nil _ h

theorem getLast?_chunk (x : Item) (A B C : List Item) (h : C ≠ []) :
    (x :: (A ++ (B ++ C))).getLast? = C.getLast? := by
  have hBC : B ++ C ≠ [] := by
    intro hc
    exact h (List.append_eq_nil.mp hc).2
  have hABC : A ++ (B ++ C) ≠ [] := by
    intro hc
    exact hBC (List.append_eq_nil.mp hc).2
  rw [getLast?_cons_of_ne_nil _ hABC, List.getLast?_append_of_ne_nil _ hBC,
    List.getLast?_append_of_ne_nil _ h]

/-- The output of the loop ends with a line break exactly when the
`next_row_index` of its final entry is zero (the final entry is assumed to
lie strictly before both the truncation index and the final list index, and
the running index fits `u16`). -/
theorem emitFrom_getLast (nc ml cw total : Nat) (l : List LEntry) :
    ∀ i : Nat, l ≠ [] →
      i + l.length ≤ ml * nc - 1 → i + l.length < total → i + l.length ≤ 65535 →
      ((emitFrom nc ml cw total i l).getLast? = some Item.nlI ↔ (i + l.length) % nc = 0) := by
  induction l with
  | nil => intro i h; simp at h
  | cons e rest ih =>
    intro i _ h1 h2 h3
    have hlen : i + (rest.length + 1) ≤ ml * nc - 1 := by simpa using h1
    have hi : i ≠ ml * nc - 1 := by omega
    cases rest with
    | nil =>
      have hmod2 : (i % 65536 + 1) % 65536 = i + 1 := by
        rw [Nat.mod_eq_of_lt (show i < 65536 by simp at h3; omega)]
        exact Nat.mod_eq_of_lt (by simp at h3; omega)
      have hit : i ≠ total - 1 := by simp at h2; omega
      rw [emitFrom_cons, if_neg hi, show emitFrom nc ml cw total (i + 1) [] = [] from rfl]
      by_cases hz : ((i % 65536 + 1) % 65536) % nc = 0
      · rw [if_neg (not_not_intro hz), if_pos (Or.inl hz)]
        rw [show (Item.entryI e.name (get_color_and_indicator e.ftype).2 ::
            ([] ++ ([Item.nlI] ++ []))).getLast? = some Item.nlI from rfl]
        rw [hmod2] at hz
        simpa using hz
      · rw [if_pos hz, if_neg (by rintro (h | h); exacts [hz h, hit h])]
        rw [show (Item.entryI e.name (get_color_and_indicator e.ftype).2 ::
            ([Item.padI (cw - e.width)] ++ ([] ++ []))).getLast?
          = some (Item.padI (cw - e.width)) from rfl]
        rw [hmod2] at hz
        refine iff_of_false (by simp) (by simpa using hz)
    | cons r rs =>
      have htail := emitFrom_ne_nil nc ml cw total (i + 1) r rs
      have hrec := ih (i + 1) (by simp)
        (by simp at h1 ⊢; omega) (by simp at h2 ⊢; omega) (by simp at h3 ⊢; omega)
      rw [emitFrom_cons, if_neg hi, getLast?_chunk _ _ _ _ htail, hrec]
      have harith : i + 1 + (r :: rs).length = i + (e :: r :: rs).length := by
        simp
        omega
      rw [harith]

/-- Any entry item printed by the loop carries the name and the classifier
indicator of one of the entries of the printed list. -/
theorem entryI_mem_emitFrom (nc ml cw total : Nat) (l : List LEntry) :
    ∀ (i : Nat) (n : String) (ind : Option Char),
      Item.entryI n ind ∈ emitFrom nc ml cw total i l →
      ∃ e ∈ l, n = e.name ∧ ind = (get_color_and_indicator e.ftype).2 := by
  induction l with
  | nil => intro i n ind h; simp [emitFrom] at h
  | cons e rest ih =>
    intro i n ind h
    by_cases hi : i = ml * nc - 1
    · simp [emitFrom, hi] at h
    · rw [emitFrom_cons, if_neg hi] at h
      rcases List.mem_cons.mp h with h | h
      · exact ⟨e, List.mem_cons_self _ _, by simp_all⟩
      · rcases List.mem_append.mp h with h | h
        · exact absurd h (by split_ifs <;> simp)
        · rcases List.mem_append.mp h with h | h
          · exact absurd h (by split_ifs <;> simp)
          · obtain ⟨e', he', hn⟩ := ih (i + 1) n ind h
            exact ⟨e', List.mem_cons_of_mem _ he', hn⟩

/-- C2: with `may_fall_back_to_dirs_only = true`, when the candidate count
exceeds `columnCount * maxLines` and a directory is present, the layout is
re-run on the directories alone with further narrowing disabled (the whole
computation, including the layout numbers, is redone on the narrowed set);
otherwise the original set is sorted and emitted with the numbers already
computed. -/
theorem claim_C2 (entries : List LEntry) (tw : Option Nat) (ml mW cw nc : Nat)
    (hmw : maxWidth? entries = some mW) (hl : layoutNums mW tw = some (cw, nc)) :
    (nc * ml < entries.length ∧ entries.any (fun e => e.ftype.is_dir) = true →
        print_entries_in_columns entries tw ml true
          = print_entries_in_columns (entries.filter (fun e => e.ftype.is_dir)) tw ml false)
      ∧ (¬(nc * ml < entries.length ∧ entries.any (fun e => e.ftype.is_dir) = true) →
          print_entries_in_columns entries tw ml true
            = some (emit (sortByName entries) nc ml cw))
      ∧ ∀ mW' cw' nc',
          maxWidth? (entries.filter (fun e => e.ftype.is_dir)) = some mW' →
          layoutNums mW' tw = some (cw', nc') →
          nc * ml < entries.length → entries.any (fun e => e.ftype.is_dir) = true →
          print_entries_in_columns entries tw ml true
            = some (emit (sortByName (entries.filter (fun e => e.ftype.is_dir))) nc' ml cw') := by
  refine ⟨fun hcond => ?_, fun hcond => ?_, fun mW' cw' nc' hmw' hl' hlen hdir => ?_⟩
  · simp only [print_entries_in_columns, hmw, hl, if_pos hcond, if_true]
    rfl
  · simp only [print_entries_in_columns, hmw, hl, if_neg hcond, if_true]
  · simp only [print_entries_in_columns, hmw, hl, if_pos (And.intro hlen hdir), if_true,
      printNoNarrow, hmw', hl']

/-- Witness for C2: 5 candidates, one directory, grid capacity 4 — the
engine narrows to the directory and re-lays it out. -/
theorem claim_C2_witness :
    print_entries_in_columns
        [LEntry.mk "b" FileType.directory 1, LEntry.mk "a" FileType.regularFile 1,
          LEntry.mk "c" FileType.regularFile 1, LEntry.mk "d" FileType.regularFile 1,
          LEntry.mk "e" FileType.regularFile 1] (some 16) 2 true
      = print_entries_in_columns
          ([LEntry.mk "b" FileType.directory 1, LEntry.mk "a" FileType.regularFile 1,
            LEntry.mk "c" FileType.regularFile 1, LEntry.mk "d" FileType.regularFile 1,
            LEntry.mk "e" FileType.regularFile 1].filter (fun e => e.ftype.is_dir))
          (some 16) 2 false :=
  (claim_C2 [LEntry.mk "b" FileType.directory 1, LEntry.mk "a" FileType.regularFile 1,
      LEntry.mk "c" FileType.regularFile 1, LEntry.mk "d" FileType.regularFile 1,
      LEntry.mk "e" FileType.regularFile 1] (some 16) 2 1 8 2 rfl rfl).1
    ⟨by norm_num, by decide⟩

theorem printNoNarrow_some {entries : List LEntry} {tw : Option Nat} {ml : Nat}
    {items : List Item} (h : printNoNarrow entries tw ml = some items) :
    ∃ nc cw, items = emit (sortByName entries) nc ml cw := by
  unfold printNoNarrow at h
  split at h
  · exact absurd h (by simp)
  · split at h
    · exact absurd h (by simp)
    · rename_i mW hmw p cw nc hl
      exact ⟨nc, cw, (Option.some.inj h).symm⟩

/-- Any successful call of the layout engine prints a sorted version of
either its candidate set or of the directories among them. -/
theorem print_some_shape {entries : List LEntry} {tw : Option Nat} {ml : Nat} {b : Bool}
    {items : List Item} (h : print_entries_in_columns entries tw ml b = some items) :
    ∃ final nc cw,
      (final = entries ∨ final = entries.filter (fun e => e.ftype.is_dir))
        ∧ items = emit (sortByName final) nc ml cw := by
  cases b with
  | false =>
    obtain ⟨nc, cw, hi⟩ := printNoNarrow_some (show printNoNarrow entries tw ml = some items from h)
    exact ⟨entries, nc, cw, Or.inl rfl, hi⟩
  | true =>
    have h' : (match maxWidth? entries with
        | none => none
        | some mW =>
          match layoutNums mW tw with
          | none => none
          | some (cw, nc) =>
            if nc * ml < entries.length ∧ entries.any (fun e => e.ftype.is_dir) then
              printNoNarrow (entries.filter (fun e => e.ftype.is_dir)) tw ml
            else some (emit (sortByName entries) nc ml cw)) = some items := h
    split at h'
    · exact absurd h' (by simp)
    · split at h'
      · exact absurd h' (by simp)
      · split at h'
        · obtain ⟨nc, cw, hi⟩ := printNoNarrow_some h'
          exact ⟨entries.filter (fun e => e.ftype.is_dir), nc, cw, Or.inr rfl, hi⟩
        · rename_i mW hmw p cw nc hl hcond
          exact ⟨entries, nc, cw, Or.inl rfl, (Option.some.inj h').symm⟩

theorem string_eq_of_data_eq {a b : String} (h : a.data = b.data) : a = b := by
  cases a
  cases b
  exact congrArg String.mk (by simpa using h)

/-- Every entry item in a successful layout output names one of the
candidate entries, with its classifier indicator. -/
theorem print_entryI_mem {entries : List LEntry} {tw : Option Nat} {ml : Nat} {b : Bool}
    {items : List Item} {n : String} {ind : Option Char}
    (h : print_entries_in_columns entries tw ml b = some items)
    (hm : Item.entryI n ind ∈ items) :
    ∃ e ∈ entries, n = e.name ∧ ind = (get_color_and_indicator e.ftype).2 := by
  obtain ⟨final, nc, cw, hfin, hi⟩ := print_some_shape h
  subst hi
  obtain ⟨e, he, hn⟩ := entryI_mem_emitFrom nc ml cw (sortByName final).length
    (sortByName final) 0 n ind hm
  have hef : e ∈ final := (sortByName_perm final).mem_iff.mp he
  rcases hfin with rfl | rfl
  · exact ⟨e, hef, hn⟩
  · exact ⟨e, List.mem_of_mem_filter hef, hn⟩

/-- C1 (amended): the marker is emitted exactly when the displayed entry
count is at least `columnCount * maxLines` (not only when it strictly
exceeds it); in that case the entries of index `< columnCount*maxLines - 1`
are printed, `....` and a line break follow, and `....` begins a fresh line
exactly when `columnCount = 1`; below capacity every entry is printed and
no marker appears. -/
theorem claim_C1_amended (l : List LEntry) (nc ml cw : Nat)
    (hnc : 1 ≤ nc) (hml : 1 ≤ ml) (hcap : ml * nc ≤ 65536) (hne : l ≠ []) :
    (Item.dotsI ∈ emit l nc ml cw ↔ ml * nc ≤ l.length)
      ∧ (ml * nc ≤ l.length →
          outputNames (emit l nc ml cw) = (l.map LEntry.name).take (ml * nc - 1)
            ∧ ∃ p, emit l nc ml cw = p ++ [Item.dotsI, Item.nlI]
                ∧ ((p = [] ∨ p.getLast? = some Item.nlI) ↔ nc = 1))
      ∧ (l.length < ml * nc →
          outputNames (emit l nc ml cw) = l.map LEntry.name
            ∧ Item.dotsI ∉ emit l nc ml cw) := by
  have hcap1 : 1 ≤ ml * nc := by
    have := Nat.mul_le_mul hml hnc
    omega
  have hlen1 : 1 ≤ l.length := by
    cases l with
    | nil => exact absurd rfl hne
    | cons x xs => simp
  refine ⟨⟨fun hdots => ?_, fun hge => ?_⟩, fun hge => ?_, fun hlt => ?_⟩
  · by_contra hlt
    have := (emitFrom_no_trunc nc ml cw l.length l 0 (by omega)).1
    exact this (by simpa [emit] using hdots)
  · have hsplit := emitFrom_truncates nc ml cw l.length l 0 (by omega) (by omega)
    rw [Nat.sub_zero] at hsplit
    simp only [emit, hsplit]
    simp
  · have hT_lt_len : ml * nc - 1 < l.length := by omega
    have hsplit := emitFrom_truncates nc ml cw l.length l 0 (by omega) (by omega)
    rw [Nat.sub_zero] at hsplit
    have htake_len : (l.take (ml * nc - 1)).length = ml * nc - 1 := by
      simp [List.length_take]
      omega
    have hno := emitFrom_no_trunc nc ml cw l.length (l.take (ml * nc - 1)) 0 (by omega)
    constructor
    · simp only [emit, hsplit, outputNames_append, hno.2, outputNames_cons_dotsI,
        outputNames_cons_nlI, outputNames_nil, List.append_nil]
      simp [List.map_take]
    · refine ⟨emitFrom nc ml cw l.length 0 (l.take (ml * nc - 1)), by simp [emit, hsplit], ?_⟩
      by_cases hT0 : ml * nc - 1 = 0
      · have hone : nc = 1 := by
          have : nc ≤ ml * nc := Nat.le_mul_of_pos_left nc (by omega)
          omega
        rw [hT0]
        exact iff_of_true (Or.inl rfl) hone
      · have htne : l.take (ml * nc - 1) ≠ [] := by
          intro hc
          rw [hc] at htake_len
          exact hT0 (by simpa using htake_len.symm)
        have hpne : emitFrom nc ml cw l.length 0 (l.take (ml * nc - 1)) ≠ [] := by
          cases htk : l.take (ml * nc - 1) with
          | nil => exact absurd htk htne
          | cons e' l' => exact emitFrom_ne_nil nc ml cw l.length 0 e' l'
        have hgl := emitFrom_getLast nc ml cw l.length (l.take (ml * nc - 1)) 0 htne
          (by omega) (by omega) (by omega)
        rw [htake_len] at hgl
        simp only [Nat.zero_add] at hgl
        have hmod : (ml * nc - 1) % nc = 0 ↔ nc = 1 := by
          constructor
          · intro h0
            by_contra hnc1
            have hmul : ml * nc = nc * (ml - 1) + nc := by
              obtain ⟨m, rfl⟩ : ∃ m, ml = m + 1 := ⟨ml - 1, by omega⟩
              simp only [Nat.add_sub_cancel]
              ring
            have heq : ml * nc - 1 = nc * (ml - 1) + (nc - 1) := by
              rw [hmul, Nat.add_sub_assoc (by omega)]
            rw [heq, Nat.mul_add_mod, Nat.mod_eq_of_lt (by omega)] at h0
            omega
          · intro h1
            subst h1
            omega
        constructor
        · rintro (hp | hp)
          · exact absurd hp hpne
          · exact hmod.mp (hgl.mp hp)
        · intro h1
          exact Or.inr (hgl.mpr (hmod.mpr h1))
  · have := emitFrom_no_trunc nc ml cw l.length l 0 (by omega)
    exact ⟨by simpa [emit] using this.2, by simpa [emit] using this.1⟩

/-- Witness for the amended C1: one entry, one column, one line — the
marker replaces the single entry and stands on its own line. -/
theorem claim_C1_witness :
    (Item.dotsI ∈ emit [LEntry.mk "a" FileType.regularFile 1] 1 1 8
        ↔ 1 * 1 ≤ [LEntry.mk "a" FileType.regularFile 1].length)
      ∧ (1 * 1 ≤ [LEntry.mk "a" FileType.regularFile 1].length →
          outputNames (emit [LEntry.mk "a" FileType.regularFile 1] 1 1 8)
              = ([LEntry.mk "a" FileType.regularFile 1].map LEntry.name).take (1 * 1 - 1)
            ∧ ∃ p, emit [LEntry.mk "a" FileType.regularFile 1] 1 1 8
                  = p ++ [Item.dotsI, Item.nlI]
                ∧ ((p = [] ∨ p.getLast? = some Item.nlI) ↔ 1 = 1))
      ∧ ([LEntry.mk "a" FileType.regularFile 1].length < 1 * 1 →
          outputNames (emit [LEntry.mk "a" FileType.regularFile 1] 1 1 8)
              = [LEntry.mk "a" FileType.regularFile 1].map LEntry.name
            ∧ Item.dotsI ∉ emit [LEntry.mk "a" FileType.regularFile 1] 1 1 8) :=
  claim_C1_amended [LEntry.mk "a" FileType.regularFile 1] 1 1 8 (by decide) (by decide)
    (by decide) (by decide)

/-- C1 fails as stated: with 4 displayed entries, 2 columns and 2 lines the
entry count does not exceed `columnCount * maxLines = 4`, yet the `....`
marker is printed and the entry `d` is dropped. -/
theorem claim_C1_counterexample :
    ¬ ((Item.dotsI ∈ emit
            [LEntry.mk "a" FileType.regularFile 1, LEntry.mk "b" FileType.regularFile 1,
              LEntry.mk "c" FileType.regularFile 1, LEntry.mk "d" FileType.regularFile 1] 2 2 8
          ↔ 2 * 2 <
            [LEntry.mk "a" FileType.regularFile 1, LEntry.mk "b" FileType.regularFile 1,
              LEntry.mk "c" FileType.regularFile 1, LEntry.mk "d" FileType.regularFile 1].length)
        ∧ ([LEntry.mk "a" FileType.regularFile 1, LEntry.mk "b" FileType.regularFile 1,
              LEntry.mk "c" FileType.regularFile 1, LEntry.mk "d" FileType.regularFile 1].length
              ≤ 2 * 2 →
            outputNames (emit
                [LEntry.mk "a" FileType.regularFile 1, LEntry.mk "b" FileType.regularFile 1,
                  LEntry.mk "c" FileType.regularFile 1, LEntry.mk "d" FileType.regularFile 1] 2 2 8)
              = [LEntry.mk "a" FileType.regularFile 1, LEntry.mk "b" FileType.regularFile 1,
                  LEntry.mk "c" FileType.regularFile 1,
                  LEntry.mk "d" FileType.regularFile 1].map LEntry.name)) := by
  decide

/-- C7: in every successful layout (of a displayed set with distinct names,
as any directory listing has) the printed entries appear in strictly
ascending codepoint/byte order of their names. -/
theorem claim_C7 (entries : List LEntry) (tw : Option Nat) (ml : Nat) (b : Bool)
    (items : List Item) (hnd : (entries.map LEntry.name).Nodup)
    (h : print_entries_in_columns entries tw ml b = some items) :
    List.Pairwise (fun a b : String => lexLt a.data b.data = true) (outputNames items) := by
  obtain ⟨final, nc, cw, hfin, hi⟩ := print_some_shape h
  subst hi
  have hperm : (sortByName final).Perm final := sortByName_perm final
  have hsorted := sortByName_sorted final
  have hnodup_final : (final.map LEntry.name).Nodup := by
    rcases hfin with rfl | rfl
    · exact hnd
    · exact List.Nodup.sublist (List.Sublist.map LEntry.name (List.filter_sublist entries)) hnd
  have hnodup_sorted : ((sortByName final).map LEntry.name).Nodup :=
    ((hperm.map LEntry.name).symm).nodup hnodup_final
  have hp1 : ((sortByName final).map LEntry.name).Pairwise (fun a b => nameLe a b = true) :=
    List.pairwise_map.mpr hsorted
  have hp2 : ((sortByName final).map LEntry.name).Pairwise
      (fun a b : String => lexLt a.data b.data = true) := by
    refine (hp1.and hnodup_sorted).imp ?_
    rintro a b ⟨h1, h2⟩
    exact lexLt_of_lexLe_of_ne _ _ h1 (fun hd => h2 (string_eq_of_data_eq hd))
  obtain ⟨k, hk⟩ := emitFrom_names_prefix nc ml cw (sortByName final).length (sortByName final) 0
  rw [show outputNames (emit (sortByName final) nc ml cw)
      = ((sortByName final).map LEntry.name).take k from hk]
  exact List.Pairwise.sublist (List.take_sublist k _) hp2

/-- Witness for C7: a directory and a regular file are printed in ascending
name order. -/
theorem claim_C7_witness :
    List.Pairwise (fun a b : String => lexLt a.data b.data = true)
      (outputNames [Item.entryI "a" (some '/'), Item.padI 7, Item.entryI "b" none,
        Item.padI 7, Item.nlI]) :=
  claim_C7 [LEntry.mk "b" FileType.regularFile 1, LEntry.mk "a" FileType.directory 1]
    (some 80) 2 true
    [Item.entryI "a" (some '/'), Item.padI 7, Item.entryI "b" none, Item.padI 7, Item.nlI]
    (by decide) rfl

/-! ### Facts about the bounded scanner -/

theorem dirCount_nil : dirCount [] = 0 := rfl

theorem dirCount_cons (e : RawEntry) (l : List RawEntry) :
    dirCount (e :: l) = (if e.ftype.is_dir then 1 else 0) + dirCount l := by
  by_cases h : e.ftype.is_dir <;> simp [dirCount, List.filter_cons, h] <;> omega

/-- The scan of a listing is the scan of its non-hidden part: hidden names
are skipped before the counters and the clock are consulted. -/
theorem scanLoop_visible (m : Nat) (t : Nat → Nat) (l : List RawEntry) :
    ∀ i d, scanLoop m t l i d = scanLoop m t (visible l) i d := by
  induction l with
  | nil => intro i d; rfl
  | cons e rest ih =>
    intro i d
    by_cases he : hiddenName e.name
    · have hv : visible (e :: rest) = visible rest := by simp [visible, he]
      rw [hv, show scanLoop m t (e :: rest) i d = scanLoop m t rest i d
        from by simp [scanLoop, he]]
      exact ih i d
    · have he' : hiddenName e.name = false := by simpa using he
      have hv : visible (e :: rest) = e :: visible rest := by simp [visible, he']
      rw [hv]
      simp only [scanLoop, he', Bool.false_eq_true, if_false, ih]

theorem scan_entries_not_hidden (m : Nat) (t : Nat → Nat) (l : List RawEntry) :
    ∀ i d e, e ∈ (scanLoop m t l i d).entries → hiddenName e.name = false := by
  induction l with
  | nil => intro i d e he; simp [scanLoop] at he
  | cons x rest ih =>
    intro i d e he
    by_cases hx : hiddenName x.name
    · rw [show scanLoop m t (x :: rest) i d = scanLoop m t rest i d
        from by simp [scanLoop, hx]] at he
      exact ih i d e he
    · have hx' : hiddenName x.name = false := by simpa using hx
      by_cases h1 : m ≤ (if x.ftype.is_dir then d + 1 else d)
      · rw [show scanLoop m t (x :: rest) i d
            = ⟨[x], if x.ftype.is_dir then d + 1 else d, true, false⟩
          from by simp only [scanLoop, hx', Bool.false_eq_true, if_false, if_pos h1]] at he
        rcases List.mem_singleton.mp he with rfl
        exact hx'
      · by_cases h2 : TIME_LIMIT_NS < t i
        · rw [show scanLoop m t (x :: rest) i d
              = ⟨[x], if x.ftype.is_dir then d + 1 else d, false, true⟩
            from by
              simp only [scanLoop, hx', Bool.false_eq_true, if_false, if_neg h1,
                if_pos h2]] at he
          rcases List.mem_singleton.mp he with rfl
          exact hx'
        · rw [show scanLoop m t (x :: rest) i d
              = ⟨x :: (scanLoop m t rest (i + 1) (if x.ftype.is_dir then d + 1 else d)).entries,
                  (scanLoop m t rest (i + 1) (if x.ftype.is_dir then d + 1 else d)).numDirs,
                  (scanLoop m t rest (i + 1) (if x.ftype.is_dir then d + 1 else d)).tooManyDirs,
                  (scanLoop m t rest (i + 1)
                    (if x.ftype.is_dir then d + 1 else d)).ranOutOfTimeListing⟩
            from by
              simp only [scanLoop, hx', Bool.false_eq_true, if_false, if_neg h1,
                if_neg h2]] at he
          rcases List.mem_cons.mp he with rfl | he'
          · exact hx'
          · exact ih (i + 1) _ e he'

/-- Behaviour of the scanning loop when the clock never exceeds the budget:
the directory cap is hit exactly when the listing holds at least `m - d`
more directories, and then the collected entries are the shortest prefix
whose directory count reaches the cap, ending at the triggering directory. -/
theorem scanLoop_count_spec (m : Nat) (t : Nat → Nat) (ht : ∀ j, t j ≤ TIME_LIMIT_NS)
    (l : List RawEntry) :
    ∀ i d, (∀ e ∈ l, hiddenName e.name = false) → d < m →
      ((scanLoop m t l i d).tooManyDirs = true ↔ m ≤ d + dirCount l)
        ∧ ((scanLoop m t l i d).tooManyDirs = false → (scanLoop m t l i d).entries = l)
        ∧ ((scanLoop m t l i d).tooManyDirs = true →
            ∃ n, (scanLoop m t l i d).entries = l.take n
              ∧ d + dirCount (scanLoop m t l i d).entries = m
              ∧ (∃ e, (scanLoop m t l i d).entries.getLast? = some e ∧ e.ftype.is_dir = true)
              ∧ ∀ k < n, d + dirCount (l.take k) < m) := by
  induction l with
  | nil =>
    intro i d _ hd
    refine ⟨?_, fun _ => rfl, fun hc => ?_⟩
    · simp only [scanLoop, dirCount_nil]
      constructor
      · intro h
        exact absurd h (by simp)
      · intro h
        omega
    · simp [scanLoop] at hc
  | cons x rest ih =>
    intro i d hvis hd
    have hx : hiddenName x.name = false := hvis x (List.mem_cons_self _ _)
    have hvis' : ∀ e ∈ rest, hiddenName e.name = false :=
      fun e he => hvis e (List.mem_cons_of_mem _ he)
    have hnt : ¬ TIME_LIMIT_NS < t i := not_lt.mpr (ht i)
    have hdd : d + (if x.ftype.is_dir then 1 else 0) = (if x.ftype.is_dir then d + 1 else d) := by
      by_cases h : x.ftype.is_dir <;> simp [h]
    by_cases hm : m ≤ (if x.ftype.is_dir then d + 1 else d)
    · have hstep : scanLoop m t (x :: rest) i d
          = ⟨[x], if x.ftype.is_dir then d + 1 else d, true, false⟩ := by
        simp only [scanLoop, hx, Bool.false_eq_true, if_false, if_pos hm]
      have hxdir : x.ftype.is_dir = true := by
        by_contra hxd
        simp only [Bool.not_eq_true] at hxd
        rw [hxd] at hm
        simp at hm
        omega
      have hdm : d + 1 = m := by
        rw [hxdir] at hm
        simp at hm
        omega
      refine ⟨?_, ?_, ?_⟩
      · rw [hstep]
        simp only [dirCount_cons, hxdir, if_true]
        constructor
        · intro _
          omega
        · intro _
          trivial
      · rw [hstep]
        intro h
        exact absurd h (by simp)
      · intro _
        refine ⟨1, ?_, ?_, ?_, ?_⟩
        · rw [hstep]
          rfl
        · rw [hstep]
          simp only [dirCount_cons, hxdir, if_true, dirCount_nil]
          omega
        · rw [hstep]
          exact ⟨x, rfl, hxdir⟩
        · intro k hk
          interval_cases k
          simp only [List.take_zero, dirCount_nil]
          omega
    · have hstep : scanLoop m t (x :: rest) i d
          = ⟨x :: (scanLoop m t rest (i + 1) (if x.ftype.is_dir then d + 1 else d)).entries,
              (scanLoop m t rest (i + 1) (if x.ftype.is_dir then d + 1 else d)).numDirs,
              (scanLoop m t rest (i + 1) (if x.ftype.is_dir then d + 1 else d)).tooManyDirs,
              (scanLoop m t rest (i + 1)
                (if x.ftype.is_dir then d + 1 else d)).ranOutOfTimeListing⟩ := by
        simp only [scanLoop, hx, Bool.false_eq_true, if_false, if_neg hm, if_neg hnt]
      have hd' : (if x.ftype.is_dir then d + 1 else d) < m := by omega
      obtain ⟨ih1, ih2, ih3⟩ := ih (i + 1) (if x.ftype.is_dir then d + 1 else d) hvis' hd'
      refine ⟨?_, ?_, ?_⟩
      · rw [hstep]
        dsimp only
        rw [ih1, dirCount_cons]
        omega
      · rw [hstep]
        dsimp only
        intro h
        rw [ih2 h]
      · rw [hstep]
        dsimp only
        intro h
        obtain ⟨n, hn1, hn2, hn3, hn4⟩ := ih3 h
        refine ⟨n + 1, ?_, ?_, ?_, ?_⟩
        · simp only [List.take_succ_cons]
          rw [hn1]
        · rw [dirCount_cons]
          omega
        · obtain ⟨e, he1, he2⟩ := hn3
          have hne : (scanLoop m t rest (i + 1)
              (if x.ftype.is_dir then d + 1 else d)).entries ≠ [] := by
            intro hc
            rw [hc] at he1
            simp at he1
          refine ⟨e, ?_, he2⟩
          rw [getLast?_cons_of_ne_nil _ hne]
          exact he1
        · intro k hk
          cases k with
          | zero =>
            simp only [List.take_zero, dirCount_nil]
            omega
          | succ k' =>
            have hmin := hn4 k' (by omega)
            simp only [List.take_succ_cons, dirCount_cons]
            omega

theorem is_dir_iff (t : FileType) : t.is_dir = true ↔ t = FileType.directory := by
  cases t <;> simp [FileType.is_dir]

theorem keptEntries_of_must {out : ScanOutcome} {maxItems : Nat}
    (h : mustShowDirsOnly out maxItems = true) :
    keptEntries out maxItems = out.entries.filter (fun e => e.ftype.is_dir) := by
  simp [keptEntries, h]

theorem keptEntries_of_not_must {out : ScanOutcome} {maxItems : Nat}
    (h : mustShowDirsOnly out maxItems = false) :
    keptEntries out maxItems = out.entries := by
  simp [keptEntries, h]

/-- C3: the orchestrator forces directories-only exactly when the scan timed
out, hit the directory cap, or collected more entries than the capacity
bound; in that case only directory-type entries are kept (and every printed
entry carries the directory indicator `/`); otherwise the scanned set is
kept unchanged; and an empty candidate set makes the run print nothing and
exit successfully. -/
theorem claim_C3 (ml : Nat) (tw : Option Nat) (wf : String → Nat)
    (listing : List RawEntry) (times : Nat → Nat) (hml : ml ≠ 0) :
    (mustShowDirsOnly (scan (maxColumnsOf tw * ml) times listing) (maxColumnsOf tw * ml)
        = ((scan (maxColumnsOf tw * ml) times listing).ranOutOfTimeListing
            || (scan (maxColumnsOf tw * ml) times listing).tooManyDirs
            || decide (maxColumnsOf tw * ml
                < (scan (maxColumnsOf tw * ml) times listing).entries.length)))
      ∧ (mustShowDirsOnly (scan (maxColumnsOf tw * ml) times listing)
            (maxColumnsOf tw * ml) = true →
          (∀ e ∈ keptEntries (scan (maxColumnsOf tw * ml) times listing)
              (maxColumnsOf tw * ml), e.ftype.is_dir = true)
            ∧ ∀ (items : List Item) (n : String) (ind : Option Char),
                run ml tw wf listing times = RunResult.ok items →
                Item.entryI n ind ∈ items → ind = some '/')
      ∧ (mustShowDirsOnly (scan (maxColumnsOf tw * ml) times listing)
            (maxColumnsOf tw * ml) = false →
          keptEntries (scan (maxColumnsOf tw * ml) times listing) (maxColumnsOf tw * ml)
            = (scan (maxColumnsOf tw * ml) times listing).entries)
      ∧ (keptEntries (scan (maxColumnsOf tw * ml) times listing) (maxColumnsOf tw * ml) = [] →
          run ml tw wf listing times = RunResult.ok []) := by
  refine ⟨rfl, fun hmust => ⟨?_, ?_⟩, fun hnot => keptEntries_of_not_must hnot, fun hkept => ?_⟩
  · intro e he
    rw [keptEntries_of_must hmust] at he
    exact (List.mem_filter.mp he).2
  · intro items n ind hrun hm
    unfold run at hrun
    rw [if_neg hml] at hrun
    split at hrun
    · have hnil : [] = items := RunResult.ok.inj hrun
      rw [← hnil] at hm
      simp at hm
    · split at hrun
      · exact absurd hrun (by simp)
      · rename_i its hprint
        have hits : its = items := RunResult.ok.inj hrun
        subst hits
        obtain ⟨e, he, hn, hind⟩ := print_entryI_mem hprint hm
        simp only [candidateEntries, toLayoutEntries, List.mem_map] at he
        obtain ⟨r, hr, hre⟩ := he
        rw [keptEntries_of_must hmust] at hr
        have hdir := (List.mem_filter.mp hr).2
        have hrd : r.ftype = FileType.directory := (is_dir_iff r.ftype).mp hdir
        rw [hind, ← hre, hrd]
        rfl
  · unfold run
    rw [if_neg hml]
    simp [candidateEntries, toLayoutEntries, hkept]

/-- Witness for C3: a slow scan (100 ms per step) forces directories-only. -/
theorem claim_C3_witness :
    mustShowDirsOnly
        (scan (maxColumnsOf (some 80) * 1) (fun _ => 100000000)
          [RawEntry.mk "b" FileType.directory, RawEntry.mk "a" FileType.regularFile])
        (maxColumnsOf (some 80) * 1)
      = ((scan (maxColumnsOf (some 80) * 1) (fun _ => 100000000)
            [RawEntry.mk "b" FileType.directory,
              RawEntry.mk "a" FileType.regularFile]).ranOutOfTimeListing
          || (scan (maxColumnsOf (some 80) * 1) (fun _ => 100000000)
              [RawEntry.mk "b" FileType.directory,
                RawEntry.mk "a" FileType.regularFile]).tooManyDirs
          || decide (maxColumnsOf (some 80) * 1
              < (scan (maxColumnsOf (some 80) * 1) (fun _ => 100000000)
                  [RawEntry.mk "b" FileType.directory,
                    RawEntry.mk "a" FileType.regularFile]).entries.length)) :=
  (claim_C3 1 (some 80) (fun _ => 1)
    [RawEntry.mk "b" FileType.directory, RawEntry.mk "a" FileType.regularFile]
    (fun _ => 100000000) (by decide)).1

/-- C4: with the clock within budget, the scanner stops exactly when the
running directory count reaches `maxItems`, marking `overCapacity`, keeping
the shortest listing prefix whose directory count reaches the cap and
including the triggering directory; `maxItems = max 1 (terminalWidth / 8) *
maxLines` when the width is known and `1 * maxLines` otherwise. -/
theorem claim_C4 (tw : Option Nat) (ml : Nat) (listing : List RawEntry) (times : Nat → Nat)
    (hml : 1 ≤ ml) (ht : ∀ j, times j ≤ TIME_LIMIT_NS) :
    ((scan (maxColumnsOf tw * ml) times listing).tooManyDirs = true
        ↔ maxColumnsOf tw * ml ≤ dirCount (visible listing))
      ∧ ((scan (maxColumnsOf tw * ml) times listing).tooManyDirs = true →
          ∃ n, (scan (maxColumnsOf tw * ml) times listing).entries = (visible listing).take n
            ∧ dirCount (scan (maxColumnsOf tw * ml) times listing).entries
                = maxColumnsOf tw * ml
            ∧ (∃ e, (scan (maxColumnsOf tw * ml) times listing).entries.getLast? = some e
                ∧ e.ftype.is_dir = true)
            ∧ ∀ k < n, dirCount ((visible listing).take k) < maxColumnsOf tw * ml)
      ∧ (∀ w, tw = some w → maxColumnsOf tw * ml = max 1 (w / 8) * ml)
      ∧ (tw = none → maxColumnsOf tw * ml = 1 * ml) := by
  have hmc : 1 ≤ maxColumnsOf tw := le_max_right _ 1
  have hmi : 1 ≤ maxColumnsOf tw * ml := by
    have := Nat.mul_le_mul hmc hml
    omega
  have hvis : ∀ e ∈ visible listing, hiddenName e.name = false := by
    intro e he
    have := (List.mem_filter.mp he).2
    simpa using this
  have heq := scanLoop_visible (maxColumnsOf tw * ml) times listing 0 0
  have hs := scanLoop_count_spec (maxColumnsOf tw * ml) times ht (visible listing) 0 0
    hvis (by omega)
  rw [← heq] at hs
  obtain ⟨hs1, _, hs3⟩ := hs
  refine ⟨by simpa [scan] using hs1, ?_, ?_, ?_⟩
  · intro h
    obtain ⟨n, h1, h2, h3, h4⟩ := hs3 (by simpa [scan] using h)
    exact ⟨n, by simpa [scan] using h1, by simpa [scan] using h2,
      by simpa [scan] using h3, fun k hk => by simpa using h4 k hk⟩
  · intro w hw
    subst hw
    simp [maxColumnsOf, Nat.max_comm]
  · intro hw
    subst hw
    simp [maxColumnsOf]

/-- Witness for C4: a single directory with the terminal width unknown
(capacity bound 1) triggers the cap. -/
theorem claim_C4_witness :
    (scan (maxColumnsOf none * 1) (fun _ => 0)
        [RawEntry.mk "d" FileType.directory]).tooManyDirs = true
      ↔ maxColumnsOf none * 1 ≤ dirCount (visible [RawEntry.mk "d" FileType.directory]) :=
  (claim_C4 none 1 [RawEntry.mk "d" FileType.directory] (fun _ => 0) (by decide)
    (fun _ => Nat.zero_le _)).1

/-- C8: hidden entries (names beginning with `.`) are never collected by
the scanner and never named in the program's output. -/
theorem claim_C8 (m : Nat) (times : Nat → Nat) (listing : List RawEntry)
    (ml : Nat) (tw : Option Nat) (wf : String → Nat) (listing2 : List RawEntry)
    (times2 : Nat → Nat) :
    (∀ e ∈ (scan m times listing).entries, hiddenName e.name = false)
      ∧ (∀ (items : List Item) (n : String) (ind : Option Char),
          run ml tw wf listing2 times2 = RunResult.ok items →
          Item.entryI n ind ∈ items → hiddenName n = false) := by
  constructor
  · exact fun e he => scan_entries_not_hidden m times listing 0 0 e he
  · intro items n ind hrun hm
    unfold run at hrun
    split at hrun
    · exact absurd hrun (by simp)
    · split at hrun
      · have hnil : [] = items := RunResult.ok.inj hrun
        rw [← hnil] at hm
        simp at hm
      · split at hrun
        · exact absurd hrun (by simp)
        · rename_i its hprint
          have hits : its = items := RunResult.ok.inj hrun
          subst hits
          obtain ⟨e, he, hn, _⟩ := print_entryI_mem hprint hm
          simp only [candidateEntries, toLayoutEntries, List.mem_map] at he
          obtain ⟨r, hr, hre⟩ := he
          have hrk : r ∈ (scan (maxColumnsOf tw * ml) times2 listing2).entries := by
            by_cases hmust : mustShowDirsOnly (scan (maxColumnsOf tw * ml) times2 listing2)
                (maxColumnsOf tw * ml) = true
            · rw [keptEntries_of_must hmust] at hr
              exact List.mem_of_mem_filter hr
            · rw [keptEntries_of_not_must (by simpa using hmust)] at hr
              exact hr
          have hhid := scan_entries_not_hidden (maxColumnsOf tw * ml) times2 listing2 0 0 r hrk
          rw [hn, ← hre]
          exact hhid

end LsPreview
